import Mathlib

/-!
Shallow embedding of the Context Window Expander from
`notebooks/7-ExpandedContent-Week3.ipynb`: the episode grouper
(`groupby_episode`), the sliding-window expander
(`create_expanded_content`), and the field merger
(`join_expanded_content`), together with proofs of the spec's
properties about them.
-/

/-- A chunk record: the fields of the dataset rows that the transform
touches (`video_id` as grouping key, `content` as text, and the
`expanded_content` field added by the merger, absent initially). -/
structure Record where
  video_id : String
  content : String
  expanded_content : Option String
deriving DecidableEq

/-- Python's normalisation of an int index `i` for a sequence of length
`n` in a slice `l[a:b]`: a negative index counts from the end, then the
result is clamped to `[0, n]`. -/
def pyIndex (n : Nat) (i : Int) : Nat :=
  (min (max (if i < 0 then i + n else i) 0) (n : Int)).toNat

/-- Python's slice `l[a:b]` (default step). -/
def pySlice {α : Type} (l : List α) (a b : Int) : List α :=
  (l.drop (pyIndex l.length a)).take (pyIndex l.length b - pyIndex l.length a)

/-- Python's `' '.join(l)`: the elements of `l` concatenated with a
single space between consecutive elements. -/
def joinSpace : List String → String
  | [] => ""
  | [x] => x
  | x :: y :: ys => x ++ " " ++ joinSpace (y :: ys)

/-- One step of grouping: place `x` in front of the groups of the rest
of the list, joining the first group when its first element (the record
that immediately followed `x` in the data) has the same key. -/
def addToGroups (key : Record → String) (x : Record) :
    List (List Record) → List (List Record)
  | [] => [[x]]
  | [] :: gs => [x] :: [] :: gs
  | (y :: ys) :: gs =>
    if key x = key y then (x :: y :: ys) :: gs
    else [x] :: (y :: ys) :: gs

/-- The function `groupby_episode` from the notebook:
`itertools.groupby` over the key field splits the data into maximal
runs of consecutive records with equal key, in order.  The key field
access `x[key_field]` is modelled by a key-selector function. -/
def groupby_episode (key : Record → String) : List Record → List (List Record)
  | [] => []
  | x :: xs => addToGroups key x (groupby_episode key xs)

/-- The window slice of the inner loop of `create_expanded_content`:
`episode[max(0, i - window_size) : i + window_size + 1]`, with Python
slice semantics. -/
def windowChunks (window_size : Int) (episode : List String) (i : Nat) : List String :=
  pySlice episode (max 0 ((i : Int) - window_size)) ((i : Int) + window_size + 1)

/-- The body of `create_expanded_content`'s loop over one episode:
for each position `i`, `' '.join(episode[start:end])`. -/
def expand_episode (window_size : Int) (episode : List String) : List String :=
  (List.range episode.length).map (fun i => joinSpace (windowChunks window_size episode i))

/-- The function `create_expanded_content` from the notebook: group the
data into episodes, assert that the number of groups equals
`num_episodes` (`none` models the `AssertionError`), extract the
`content` field of each record, and expand every episode with the
sliding window. -/
def create_expanded_content (data : List Record) (window_size : Int)
    (num_episodes : Nat) (key : Record → String) :
    Option (List (List String)) :=
  let episodes := groupby_episode key data
  if episodes.length = num_episodes then
    let chunk_list := episodes.map (fun alist => alist.map (fun d => d.content))
    some (chunk_list.map (fun episode => expand_episode window_size episode))
  else
    none

/-- Modelled from the spec: the body of `join_expanded_content` is left
as a student exercise in the notebook (only its docstring, signature and
the preceding length assertion appear in the source).  Per the spec's
Field Merger contract, it checks that the record sequence and the
expanded-string sequence have equal length (a fatal precondition
failure, modelled as `none`, otherwise) and sets the new field of each
record from the expanded string at the same position. -/
def join_expanded_content (data : List Record) (flattened_content : List String) :
    Option (List Record) :=
  if data.length = flattened_content.length then
    some (data.zipWith
      (fun d s => Record.mk d.video_id d.content (some s)) flattened_content)
  else
    none

/-- The Window Joiner as the spec words it: for each position `i`, the
chunks at positions `max(0, i-W)` through `i+W` inclusive, clamped to
the group's bounds, joined with a single space. -/
def expand_episode_spec (W : Nat) (chunks : List String) : List String :=
  (List.range chunks.length).map
    (fun i => joinSpace ((chunks.take (i + W + 1)).drop (i - W)))

/-- The key selector for the notebook's default key field `video_id`. -/
def byVideoId : Record → String := fun r => r.video_id

/-- A predicate stating that every record of a group shares one key
value. -/
def SameKey (key : Record → String) (g : List Record) : Prop :=
  ∀ a ∈ g, ∀ b ∈ g, key a = key b

/-- A predicate stating that two groups have no key value in common. -/
def DiffKey (key : Record → String) (g1 g2 : List Record) : Prop :=
  ∀ a ∈ g1, ∀ b ∈ g2, key a ≠ key b

/-- Concrete data with two episodes, `A B` and `X Y Z`. -/
def twoGroupData : List Record :=
  [Record.mk "v" "A" none, Record.mk "v" "B" none,
   Record.mk "v2" "X" none, Record.mk "v2" "Y" none, Record.mk "v2" "Z" none]

/-- Concrete data with one episode, `A B C D`. -/
def oneGroupData : List Record :=
  [Record.mk "v" "A" none, Record.mk "v" "B" none,
   Record.mk "v" "C" none, Record.mk "v" "D" none]

theorem join_addToGroups (key : Record → String) (x : Record)
    (gs : List (List Record)) : (addToGroups key x gs).flatten = x :: gs.flatten := by
  match gs with
  | [] => rfl
  | [] :: gs => rfl
  | (y :: ys) :: gs =>
    simp only [addToGroups]
    split <;> simp

theorem groupby_flatten (key : Record → String) :
    ∀ data : List Record, (groupby_episode key data).flatten = data
  | [] => rfl
  | x :: xs => by
    simp only [groupby_episode, join_addToGroups, groupby_flatten key xs]

theorem nil_not_mem_addToGroups (key : Record → String) (x : Record)
    (gs : List (List Record)) (h : [] ∉ gs) : [] ∉ addToGroups key x gs := by
  match gs with
  | [] => simp [addToGroups]
  | [] :: gs => exact absurd (by simp) h
  | (y :: ys) :: gs =>
    simp only [addToGroups]
    split
    · intro hc
      rcases List.mem_cons.1 hc with h1 | h1
      · exact List.cons_ne_nil _ _ h1.symm
      · exact h (List.mem_cons_of_mem _ h1)
    · intro hc
      rcases List.mem_cons.1 hc with h1 | h1
      · exact List.cons_ne_nil _ _ h1.symm
      · exact h h1

theorem nil_not_mem_groupby (key : Record → String) :
    ∀ data : List Record, [] ∉ groupby_episode key data
  | [] => by simp [groupby_episode]
  | x :: xs =>
    nil_not_mem_addToGroups key x _ (nil_not_mem_groupby key xs)

theorem sameKey_addToGroups (key : Record → String) (x : Record)
    (gs : List (List Record)) (h : ∀ g ∈ gs, SameKey key g) :
    ∀ g ∈ addToGroups key x gs, SameKey key g := by
  match gs with
  | [] =>
    intro g hg
    simp only [addToGroups, List.mem_singleton] at hg
    subst hg
    intro a ha b hb
    simp only [List.mem_singleton] at ha hb
    rw [ha, hb]
  | [] :: gs =>
    intro g hg
    rcases List.mem_cons.1 hg with h1 | h1
    · subst h1
      intro a ha b hb
      simp only [List.mem_singleton] at ha hb
      rw [ha, hb]
    · exact h g h1
  | (y :: ys) :: gs =>
    intro g hg
    simp only [addToGroups] at hg
    by_cases hxy : key x = key y
    · rw [if_pos hxy] at hg
      rcases List.mem_cons.1 hg with h1 | h1
      · subst h1
        have hyy := h (y :: ys) (List.mem_cons_self _ _)
        intro a ha b hb
        rcases List.mem_cons.1 ha with ha' | ha' <;>
          rcases List.mem_cons.1 hb with hb' | hb'
        · rw [ha', hb']
        · subst ha'
          exact hxy.trans (hyy y (List.mem_cons_self _ _) b hb')
        · subst hb'
          exact (hxy.trans (hyy y (List.mem_cons_self _ _) a ha')).symm
        · exact hyy a ha' b hb'
      · exact h g (List.mem_cons_of_mem _ h1)
    · rw [if_neg hxy] at hg
      rcases List.mem_cons.1 hg with h1 | h1
      · subst h1
        intro a ha b hb
        simp only [List.mem_singleton] at ha hb
        rw [ha, hb]
      · exact h g h1

theorem sameKey_groupby (key : Record → String) :
    ∀ data : List Record, ∀ g ∈ groupby_episode key data, SameKey key g
  | [] => by simp [groupby_episode]
  | x :: xs =>
    sameKey_addToGroups key x _ (sameKey_groupby key xs)

theorem chain_addToGroups (key : Record → String) (x : Record)
    (gs : List (List Record)) (hc : List.Chain' (DiffKey key) gs)
    (h : ∀ g ∈ gs, SameKey key g) :
    List.Chain' (DiffKey key) (addToGroups key x gs) := by
  match gs with
  | [] => simp [addToGroups]
  | [] :: gs =>
    refine List.chain'_cons'.2 ⟨?_, hc⟩
    intro g hg a ha b hb
    simp only [List.mem_singleton] at ha
    rw [List.head?_cons, Option.mem_def, Option.some_inj] at hg
    subst hg
    exact absurd hb (List.not_mem_nil b)
  | (y :: ys) :: gs =>
    simp only [addToGroups]
    by_cases hxy : key x = key y
    · rw [if_pos hxy]
      rcases List.chain'_cons'.1 hc with ⟨hhd, htl⟩
      refine List.chain'_cons'.2 ⟨?_, htl⟩
      intro g2 hg2 a ha b hb
      have hyg2 := hhd g2 hg2
      rcases List.mem_cons.1 ha with ha' | ha'
      · subst ha'
        rw [hxy]
        exact hyg2 y (List.mem_cons_self _ _) b hb
      · exact hyg2 a ha' b hb
    · rw [if_neg hxy]
      refine List.chain'_cons'.2 ⟨?_, hc⟩
      intro g2 hg2 a ha b hb
      rw [List.head?_cons, Option.mem_def, Option.some_inj] at hg2
      subst hg2
      simp only [List.mem_singleton] at ha
      subst ha
      have hyy := h (y :: ys) (List.mem_cons_self _ _)
      intro hab
      exact hxy (hab.trans (hyy b hb y (List.mem_cons_self _ _)))

theorem chain_groupby (key : Record → String) :
    ∀ data : List Record, List.Chain' (DiffKey key) (groupby_episode key data)
  | [] => by simp [groupby_episode]
  | x :: xs =>
    chain_addToGroups key x _ (chain_groupby key xs) (sameKey_groupby key xs)

theorem pyIndex_ofNat (n a : Nat) : pyIndex n (a : Int) = min a n := by
  unfold pyIndex
  rw [if_neg (by omega)]
  omega

theorem pyIndex_start (n i W : Nat) :
    pyIndex n (max 0 ((i : Int) - W)) = min (i - W) n := by
  unfold pyIndex
  rw [if_neg (by omega)]
  omega

theorem drop_take_clamp {α : Type} (l : List α) (d b : Nat) :
    (l.drop (min d l.length)).take (min b l.length - min d l.length) =
      (l.drop d).take (b - d) := by
  rcases le_or_lt l.length d with hd | hd
  · rw [Nat.min_eq_right hd, List.drop_length, List.drop_eq_nil_of_le hd,
      List.take_nil, List.take_nil]
  · rw [Nat.min_eq_left (Nat.le_of_lt hd)]
    rcases le_or_lt b l.length with he | he
    · rw [Nat.min_eq_left he]
    · rw [Nat.min_eq_right (Nat.le_of_lt he),
        List.take_of_length_le (by simp),
        List.take_of_length_le (by simp; omega)]

theorem windowChunks_eq_clamped (W : Nat) (ep : List String) (i : Nat) :
    windowChunks (W : Int) ep i = (ep.take (i + W + 1)).drop (i - W) := by
  unfold windowChunks pySlice
  have h2 : (i : Int) + W + 1 = ((i + W + 1 : Nat) : Int) := by omega
  rw [pyIndex_start, h2, pyIndex_ofNat, List.drop_take]
  exact drop_take_clamp ep (i - W) (i + W + 1)

/-- C1: the Window Joiner output at each position `i` is the
space-joined concatenation of the chunks at positions `max(0, i-W)`
through `i+W` inclusive, clamped to the group's bounds; in particular
the group `["A","B","C","D"]` with `W = 1` yields
`["A B", "A B C", "B C D", "C D"]`. -/
theorem window_joiner_correct :
    (∀ (W : Nat) (episode : List String),
      expand_episode (W : Int) episode = expand_episode_spec W episode) ∧
    expand_episode 1 ["A", "B", "C", "D"] = ["A B", "A B C", "B C D", "C D"] := by
  refine ⟨fun W episode => ?_, rfl⟩
  unfold expand_episode expand_episode_spec
  refine List.map_congr_left (fun i _ => ?_)
  rw [windowChunks_eq_clamped]

/-- C3: concatenating, in order, the groups produced by
`groupby_episode` reproduces the original input sequence exactly. -/
theorem grouper_concat_id (key : Record → String) (data : List Record) :
    (groupby_episode key data).flatten = data :=
  groupby_flatten key data

/-- C6: `create_expanded_content` fails with its assertion error
(modelled as `none`) exactly when the number of groups differs from
`num_episodes`; when the counts match it returns a result. -/
theorem create_assertion_iff (data : List Record) (window_size : Int)
    (num_episodes : Nat) (key : Record → String) :
    create_expanded_content data window_size num_episodes key = none ↔
      (groupby_episode key data).length ≠ num_episodes := by
  unfold create_expanded_content
  by_cases h : (groupby_episode key data).length = num_episodes <;>
    simp [h]

/-- C7: the Field Merger fails with its fatal precondition failure
(modelled as `none`) exactly when the record sequence and the
expanded-string sequence differ in length; the merge is only reached
when the lengths are equal. -/
theorem merger_length_check (data : List Record) (flattened_content : List String) :
    join_expanded_content data flattened_content = none ↔
      data.length ≠ flattened_content.length := by
  unfold join_expanded_content
  by_cases h : data.length = flattened_content.length <;> simp [h]

/-- C4: the groups produced by `groupby_episode` are nonempty runs of
records sharing one key value, and any two adjacent groups have
different key values, so a new group starts exactly where the key
changes and non-contiguous runs of one key are not merged. -/
theorem grouper_boundaries (key : Record → String) (data : List Record) :
    (∀ g ∈ groupby_episode key data,
       g ≠ [] ∧ ∀ a ∈ g, ∀ b ∈ g, key a = key b) ∧
    (∀ (i : ℕ) (h : i < (groupby_episode key data).length - 1),
       ∀ a ∈ (groupby_episode key data).get ⟨i, by omega⟩,
       ∀ b ∈ (groupby_episode key data).get ⟨i + 1, by omega⟩,
       key a ≠ key b) := by
  constructor
  · intro g hg
    refine ⟨?_, sameKey_groupby key data g hg⟩
    intro hnil
    exact nil_not_mem_groupby key data (hnil ▸ hg)
  · exact List.chain'_iff_get.1 (chain_groupby key data)

theorem grouper_boundaries_witness :
    byVideoId (Record.mk "v" "A" none) ≠ byVideoId (Record.mk "v2" "X" none) :=
  (grouper_boundaries byVideoId
      [Record.mk "v" "A" none, Record.mk "v2" "X" none,
       Record.mk "v" "B" none]).2
    0 (by decide) (Record.mk "v" "A" none) (by decide)
    (Record.mk "v2" "X" none) (by decide)

theorem mem_expand_episode {w : Int} {ep : List String} {s : String}
    (hs : s ∈ expand_episode w ep) :
    ∃ a b, s = joinSpace ((ep.drop a).take b) := by
  unfold expand_episode at hs
  rcases List.mem_map.1 hs with ⟨i, _, rfl⟩
  exact ⟨pyIndex ep.length (max 0 ((i : Int) - w)),
    pyIndex ep.length ((i : Int) + w + 1) -
      pyIndex ep.length (max 0 ((i : Int) - w)), rfl⟩

theorem create_some (data : List Record) (w : Int) (n : Nat)
    (key : Record → String) (out : List (List String))
    (hout : create_expanded_content data w n key = some out) :
    out = (groupby_episode key data).map
      (fun alist => expand_episode w (alist.map (fun d => d.content))) := by
  unfold create_expanded_content at hout
  by_cases h : (groupby_episode key data).length = n
  · rw [if_pos h, Option.some_inj] at hout
    rw [← hout, List.map_map]
    rfl
  · rw [if_neg h] at hout
    exact absurd hout (by simp)

/-- C2: every expanded string is built only from a contiguous slice of
the chunk contents of its own episode group (windows never cross
episode boundaries); in particular the two groups `["A","B"]` and
`["X","Y","Z"]` with `W = 1` yield
`[["A B","A B"],["X Y","X Y Z","Y Z"]]`, never joining `"B"` with
`"X"`. -/
theorem windows_stay_in_group :
    (∀ (data : List Record) (window_size : Int) (num_episodes : Nat)
       (key : Record → String) (out : List (List String)),
      create_expanded_content data window_size num_episodes key = some out →
      out.length = (groupby_episode key data).length ∧
      ∀ j, j < out.length → ∀ s ∈ out.getD j [], ∃ a b,
        s = joinSpace
          (((((groupby_episode key data).getD j []).map
              (fun d => d.content)).drop a).take b)) ∧
    create_expanded_content twoGroupData 1 2 byVideoId =
      some [["A B", "A B"], ["X Y", "X Y Z", "Y Z"]] := by
  refine ⟨fun data w n key out hout => ?_, rfl⟩
  have hrep := create_some data w n key out hout
  subst hrep
  have hlen : (List.map
      (fun alist => expand_episode w (List.map (fun d => d.content) alist))
      (groupby_episode key data)).length = (groupby_episode key data).length :=
    List.length_map _ _
  refine ⟨hlen, fun j hj s hs => ?_⟩
  have hj' : j < (groupby_episode key data).length := hlen ▸ hj
  have hgd : (List.map
      (fun alist => expand_episode w (List.map (fun d => d.content) alist))
      (groupby_episode key data)).getD j [] =
      expand_episode w
        (((groupby_episode key data).getD j []).map (fun d => d.content)) := by
    rw [List.getD_eq_getElem _ _ hj, List.getD_eq_getElem _ _ hj']
    simp
  rw [hgd] at hs
  exact mem_expand_episode hs

theorem windows_stay_in_group_witness :
    ∃ a b, "A B" = joinSpace
      (((((groupby_episode byVideoId twoGroupData).getD 0 []).map
          (fun d => d.content)).drop a).take b) :=
  ((windows_stay_in_group.1 twoGroupData 1 2 byVideoId
      [["A B", "A B"], ["X Y", "X Y Z", "Y Z"]] rfl).2
    0 (by decide) "A B" (by decide))

theorem windowChunks_length (W : Nat) (ep : List String) (i : Nat) :
    (windowChunks (W : Int) ep i).length =
      min (i + W + 1) ep.length - (i - W) := by
  rw [windowChunks_eq_clamped]
  simp [List.length_drop, List.length_take]

theorem expand_len (w : Int) (ep : List String) :
    (expand_episode w ep).length = ep.length := by
  simp [expand_episode]

/-- C8 counterexample: for the one-chunk group `["A"]` and `W = 2`,
the window at the first position holds 1 chunk, which is 4 chunks
fewer than an unclamped window of `2*W+1 = 5` — more than `W+1 = 3`. -/
theorem window_edge_policy_cex :
    ¬((2 * 2 + 1) - (windowChunks ((2 : Nat) : Int) ["A"] 0).length ≤ 2 + 1) := by
  decide

/-- C8 (amended: the deficit bound at the first and last positions
holds for groups with at least `W` chunks): for such groups the window
at the first and last position contains at most `W+1` fewer chunks
than an unclamped window of `2W+1` chunks; every window is exactly the
clamped slice `[max(0,i-W), i+W]` of the group (the window shrinks at
the edges, with no padding and no wraparound past the group's bounds);
and `W = 0` reduces to the identity on the group's contents. -/
theorem window_edge_policy :
    (∀ (W : Nat) (ep : List String), W ≤ ep.length →
      (2 * W + 1) - (windowChunks (W : Int) ep 0).length ≤ W + 1 ∧
      (2 * W + 1) - (windowChunks (W : Int) ep (ep.length - 1)).length ≤ W + 1) ∧
    (∀ (W : Nat) (ep : List String) (i : Nat),
      windowChunks (W : Int) ep i = (ep.take (i + W + 1)).drop (i - W)) ∧
    (∀ ep : List String, expand_episode 0 ep = ep) := by
  refine ⟨fun W ep hW => ?_, windowChunks_eq_clamped, fun ep => ?_⟩
  · rw [windowChunks_length, windowChunks_length]
    omega
  · have h0 : (0 : Int) = ((0 : Nat) : Int) := rfl
    apply List.ext_getElem
    · simp [expand_len]
    · intro i h1 h2
      have h1' : i < ep.length := by
        rw [expand_len] at h1
        exact h1
      unfold expand_episode
      rw [List.getElem_map, List.getElem_range, h0, windowChunks_eq_clamped,
        List.drop_take]
      have h3 : i + 0 + 1 - (i - 0) = 1 := by omega
      have h4 : i - 0 = i := by omega
      rw [h3, h4, List.drop_eq_getElem_cons h1']
      rfl

theorem window_edge_policy_witness :
    (2 * 1 + 1) - (windowChunks ((1 : Nat) : Int) ["A", "B"] 0).length ≤ 1 + 1 :=
  (window_edge_policy.1 1 ["A", "B"] (by decide)).1

theorem joinSpace_cons (x : String) (l : List String) (h : l ≠ []) :
    joinSpace (x :: l) = x ++ " " ++ joinSpace l := by
  match l with
  | [] => exact absurd rfl h
  | y :: ys => rfl

theorem joinSpace_append_cons (A : List String) (c : String) (B : List String) :
    ∃ s t, joinSpace (A ++ c :: B) = s ++ c ++ t := by
  induction A with
  | nil =>
    match B with
    | [] => exact ⟨"", "", by simp [joinSpace]⟩
    | b :: bs =>
      refine ⟨"", " " ++ joinSpace (b :: bs), ?_⟩
      rw [List.nil_append, joinSpace_cons c (b :: bs) (by simp)]
      simp [String.append_assoc]
  | cons a A ih =>
    obtain ⟨s, t, h⟩ := ih
    refine ⟨a ++ " " ++ s, t, ?_⟩
    rw [List.cons_append, joinSpace_cons a (A ++ c :: B) (by simp), h]
    simp [String.append_assoc]

theorem list_decomp (l : List String) (k : Nat) (hk : k < l.length) :
    l = l.take k ++ l.getD k "" :: l.drop (k + 1) := by
  rw [List.getD_eq_getElem l "" hk]
  conv_lhs => rw [← List.take_append_drop k l]
  rw [List.drop_eq_getElem_cons hk]

theorem content_in_window (W : Nat) (ep : List String) (i : Nat)
    (h : i < ep.length) :
    ∃ s t, joinSpace (windowChunks (W : Int) ep i) =
      s ++ ep.getD i "" ++ t := by
  rw [windowChunks_eq_clamped]
  have hk : min W i < ((ep.take (i + W + 1)).drop (i - W)).length := by
    simp [List.length_drop, List.length_take]
    omega
  have hget : ((ep.take (i + W + 1)).drop (i - W)).getD (min W i) "" =
      ep.getD i "" := by
    rw [List.getD_eq_getElem?_getD, List.getD_eq_getElem?_getD,
      List.getElem?_drop, List.getElem?_take, if_pos (by omega)]
    have : i - W + min W i = i := by omega
    rw [this]
  obtain ⟨s, t, hst⟩ := joinSpace_append_cons
    (((ep.take (i + W + 1)).drop (i - W)).take (min W i))
    (((ep.take (i + W + 1)).drop (i - W)).getD (min W i) "")
    (((ep.take (i + W + 1)).drop (i - W)).drop (min W i + 1))
  refine ⟨s, t, ?_⟩
  conv_lhs => rw [list_decomp _ (min W i) hk]
  rw [hst, hget]

theorem expand_getD (w : Int) (ep : List String) (i : Nat)
    (h : i < ep.length) :
    (expand_episode w ep).getD i "" = joinSpace (windowChunks w ep i) := by
  unfold expand_episode
  rw [List.getD_eq_getElem _ _ (by simpa using h), List.getElem_map,
    List.getElem_range]

/-- C9: whenever `create_expanded_content` succeeds, each record's
original content appears as a contiguous substring of the expanded
string computed at the same position (the window always includes the
chunk itself). -/
theorem content_in_expanded (data : List Record) (W : Nat)
    (num_episodes : Nat) (key : Record → String) (out : List (List String))
    (hout : create_expanded_content data (W : Int) num_episodes key = some out)
    (j i : Nat) (hj : j < out.length) (hi : i < (out.getD j []).length) :
    ∃ s t, (out.getD j []).getD i "" =
      s ++ (((groupby_episode key data).getD j []).map
        (fun d => d.content)).getD i "" ++ t := by
  have hrep := create_some data (W : Int) num_episodes key out hout
  subst hrep
  rw [List.length_map] at hj
  have hgd : (List.map
      (fun alist => expand_episode (W : Int)
        (List.map (fun d => d.content) alist))
      (groupby_episode key data)).getD j [] =
      expand_episode (W : Int)
        (((groupby_episode key data).getD j []).map (fun d => d.content)) := by
    rw [List.getD_eq_getElem _ _ (by simpa using hj),
      List.getD_eq_getElem _ _ hj]
    simp
  rw [hgd] at hi ⊢
  rw [expand_len] at hi
  rw [expand_getD _ _ _ hi]
  exact content_in_window W _ i hi

theorem content_in_expanded_witness :
    ∃ s t, ((([["A B", "A B"], ["X Y", "X Y Z", "Y Z"]] :
        List (List String)).getD 0 []).getD 0 "") =
      s ++ (((groupby_episode byVideoId twoGroupData).getD 0 []).map
        (fun d => d.content)).getD 0 "" ++ t :=
  content_in_expanded twoGroupData 1 2 byVideoId
    [["A B", "A B"], ["X Y", "X Y Z", "Y Z"]] rfl 0 0 (by decide) (by decide)

/-- C10 counterexample: for `window_size = -2` on the single-episode
data `A B C D`, the slice end index `i + window_size + 1` is `-1` at
position 0; Python interprets a negative end index relative to the end
of the list, so the slice is `["C"]` and the first expanded string is
`"C"`, not the empty string. -/
theorem negative_window_cex :
    create_expanded_content oneGroupData (-2) 1 byVideoId =
      some [["C", "", "", ""]] ∧ ("C" : String) ≠ "" :=
  ⟨rfl, by decide⟩

theorem windowChunks_neg_one (ep : List String) (i : Nat) :
    windowChunks (-1) ep i = [] := by
  unfold windowChunks pySlice
  have h1 : max 0 ((i : Int) - (-1)) = ((i + 1 : Nat) : Int) := by omega
  have h2 : (i : Int) + (-1) + 1 = ((i : Nat) : Int) := by omega
  rw [h1, h2, pyIndex_ofNat, pyIndex_ofNat]
  have h3 : min i ep.length - min (i + 1) ep.length = 0 := by omega
  rw [h3, List.take_zero]

/-- C10 (amended: the all-empty result holds for `window_size = -1`;
for `window_size ≤ -2` the slice end index `i + window_size + 1` can be
negative, is then interpreted by Python relative to the end of the
list, and non-empty strings can result): with `window_size = -1`,
`create_expanded_content` does not fail and every expanded content
string in the result is the empty string. -/
theorem negative_one_window_empty (data : List Record) (num_episodes : Nat)
    (key : Record → String) (out : List (List String))
    (hout : create_expanded_content data (-1) num_episodes key = some out) :
    ∀ ep ∈ out, ∀ s ∈ ep, s = "" := by
  have hrep := create_some data (-1) num_episodes key out hout
  subst hrep
  intro ep hep s hs
  rcases List.mem_map.1 hep with ⟨g, _, rfl⟩
  unfold expand_episode at hs
  rcases List.mem_map.1 hs with ⟨i, _, rfl⟩
  rw [windowChunks_neg_one]
  rfl

theorem negative_one_window_empty_witness : ("" : String) = "" :=
  negative_one_window_empty oneGroupData 1 byVideoId
    [["", "", "", ""]] rfl ["", "", "", ""] (by decide) "" (by decide)

theorem zip_merge_props :
    ∀ (data : List Record) (fc : List String), data.length = fc.length →
    (data.zipWith (fun d s => Record.mk d.video_id d.content (some s))
        fc).length = data.length ∧
    (data.zipWith (fun d s => Record.mk d.video_id d.content (some s))
        fc).map (fun r => r.expanded_content) = fc.map some ∧
    (data.zipWith (fun d s => Record.mk d.video_id d.content (some s))
        fc).map (fun r => r.video_id) = data.map (fun r => r.video_id) ∧
    (data.zipWith (fun d s => Record.mk d.video_id d.content (some s))
        fc).map (fun r => r.content) = data.map (fun r => r.content) := by
  intro data
  induction data with
  | nil =>
    intro fc h
    match fc with
    | [] => simp
    | s :: ss => simp at h
  | cons d ds ih =>
    intro fc h
    match fc with
    | [] => simp at h
    | s :: ss =>
      obtain ⟨h1, h2, h3, h4⟩ := ih ss (by simpa using h)
      simp only [List.zipWith_cons_cons, List.length_cons, List.map_cons]
      exact ⟨by rw [h1], by rw [h2], by rw [h3], by rw [h4]⟩

/-- C5: given records and a parallel expanded-string sequence of equal
length, the Field Merger produces exactly one merged record per input
record, in the original order and with the original fields, and
extracting the new field in order reproduces exactly the supplied
expanded-string sequence. -/
theorem merger_round_trip (data : List Record) (flattened_content : List String)
    (h : data.length = flattened_content.length) :
    ∃ merged, join_expanded_content data flattened_content = some merged ∧
      merged.length = data.length ∧
      merged.map (fun r => r.expanded_content) = flattened_content.map some ∧
      merged.map (fun r => r.video_id) = data.map (fun r => r.video_id) ∧
      merged.map (fun r => r.content) = data.map (fun r => r.content) := by
  obtain ⟨h1, h2, h3, h4⟩ := zip_merge_props data flattened_content h
  refine ⟨_, ?_, h1, h2, h3, h4⟩
  unfold join_expanded_content
  rw [if_pos h]

theorem merger_round_trip_witness :
    ∃ merged, join_expanded_content [Record.mk "v" "A" none] ["A B"] =
        some merged ∧
      merged.length = ([Record.mk "v" "A" none] : List Record).length ∧
      merged.map (fun r => r.expanded_content) = (["A B"] : List String).map some ∧
      merged.map (fun r => r.video_id) =
        ([Record.mk "v" "A" none] : List Record).map (fun r => r.video_id) ∧
      merged.map (fun r => r.content) =
        ([Record.mk "v" "A" none] : List Record).map (fun r => r.content) :=
  merger_round_trip [Record.mk "v" "A" none] ["A B"] rfl
